import Mathlib

/-! Verification of the bundler core of `cargo-algorist`
    (src/cmd/bundle/parsed_data.rs and src/cmd/bundle/mod.rs).

    Embedding conventions:
    * Rust `String` is embedded as `List Char` (abbreviated `Str`);
      `split('/')` and `join("/")` are embedded as executable functions on
      character lists with the same semantics.
    * `HashSet<String>` is embedded as `Finset Str`.
    * `HashMap<String, String>` is embedded as an association list whose
      insertion prepends, so lookup finds the newest binding — the same
      observable behaviour as HashMap overwrite.
    * The recursion of `insert_path` through alias targets is unbounded in
      Rust; here it carries explicit fuel, decremented only at the
      alias-target recursion.  Fuel 0 skips that recursive call.
    * Rust panics are embedded as `Option`/`Except` failure values. -/

abbrev Str := List Char

def str (s : String) : Str := s.toList

/-- Rust `str::split('/')`: split on every separator, keeping empty pieces
    (so `"a//b"` yields `["a", "", "b"]` and `""` yields `[""]`). -/
def splitChar (c : Char) : Str → List Str
  | [] => [[]]
  | x :: xs =>
    let r := splitChar c xs
    if x = c then [] :: r
    else
      match r with
      | [] => [[x]]
      | y :: ys => (x :: y) :: ys

/-- Segment extraction in `insert_path`: split on '/' and drop empty pieces
    (`.split('/').filter(|s| !s.is_empty())`). -/
def splitSegments (p : Str) : List Str :=
  (splitChar '/' p).filter (fun s => !s.isEmpty)

/-- Rust `Vec::<String>::join("/")`. -/
def joinSegs : List Str → Str
  | [] => []
  | [s] => s
  | s :: rest => s ++ '/' :: joinSegs rest

/-- A segment is clean when it is non-empty and free of the separator. -/
def CleanSeg (s : Str) : Prop := s ≠ [] ∧ '/' ∉ s

def CleanSegs (l : List Str) : Prop := ∀ s ∈ l, CleanSeg s

/-- `ParsedPaths` (src/cmd/bundle/parsed_data.rs): the Path Index. -/
structure ParsedPaths where
  paths : Finset Str
  pub_use_decls : List (Str × Str)
  pub_use_used : Finset Str

/-- `ParsedPaths::new`. -/
def ParsedPaths.new : ParsedPaths := ⟨∅, [], ∅⟩

/-- `HashMap::get` on the association-list embedding. -/
def lookupDecl (k : Str) : List (Str × Str) → Option Str
  | [] => none
  | (a, v) :: rest => if a = k then some v else lookupDecl k rest

/-- `ParsedPaths::contains_path`. -/
def ParsedPaths.contains_path (pp : ParsedPaths) (other : Str) : Bool :=
  decide (other ∈ pp.paths)

/-- `ParsedPaths::insert_pub_use_decl` (HashMap insert: newest binding wins). -/
def ParsedPaths.insert_pub_use_decl (pp : ParsedPaths) (alias0 fully_qualified : Str) :
    ParsedPaths :=
  { pp with pub_use_decls := (alias0, fully_qualified) :: pp.pub_use_decls }

/-- `ParsedPaths::is_pub_use_used`. -/
def ParsedPaths.is_pub_use_used (pp : ParsedPaths) (alias0 : Str) : Bool :=
  decide (alias0 ∈ pp.pub_use_used)

/-- The prefix-traversal loop of `ParsedPaths::insert_path`: `path0` is the
    accumulated prefix string (the mutable `path` in the Rust loop), and
    `recIns` stands for the recursive `insert_path` call on an alias target
    (fuel handling lives at the caller). -/
def insertSegsAux (recIns : ParsedPaths → Str → ParsedPaths) :
    ParsedPaths → Str → List Str → ParsedPaths
  | st, _, [] => st
  | st, path0, seg :: rest =>
    let cur := if path0.isEmpty then seg else path0 ++ '/' :: seg
    let st1 : ParsedPaths := { st with paths := insert cur st.paths }
    let st2 : ParsedPaths :=
      match lookupDecl cur st1.pub_use_decls with
      | some fully_qualified =>
        let stR :=
          if fully_qualified ∈ st1.paths then st1 else recIns st1 fully_qualified
        { stR with pub_use_used := insert cur stR.pub_use_used }
      | none => st1
    insertSegsAux recIns st2 cur rest

/-- Body of `ParsedPaths::insert_path`: extract segments, insert the full
    joined path first, then run the prefix loop. -/
def insertPathCore (recIns : ParsedPaths → Str → ParsedPaths) (st : ParsedPaths)
    (path0 : Str) : ParsedPaths :=
  let segments := splitSegments path0
  let st1 : ParsedPaths := { st with paths := insert (joinSegs segments) st.paths }
  insertSegsAux recIns st1 [] segments

/-- `ParsedPaths::insert_path` with explicit fuel for the alias-target
    recursion.  At fuel 0 the recursive call is skipped; every other step is
    unconditional, exactly as in the source. -/
def ParsedPaths.insert_path : Nat → ParsedPaths → Str → ParsedPaths
  | 0, st, path0 => insertPathCore (fun st1 _ => st1) st path0
  | Nat.succ fuel, st, path0 =>
    insertPathCore (fun st1 q => ParsedPaths.insert_path fuel st1 q) st path0

/-- The non-empty prefixes of a canonical path: '/'-joins of its first
    `k + 1` non-empty segments. -/
def prefixesOf (p : Str) : List Str :=
  (List.range (splitSegments p).length).map
    (fun k => joinSegs ((splitSegments p).take (k + 1)))

/-- Prefix closure, relative to a set of paths whose prefix obligations are
    still pending (used for the loop invariant of `insert_path`). -/
def PrefixClosedExcept (paths pending : Finset Str) : Prop :=
  ∀ p ∈ paths, p ∉ pending → ∀ q ∈ prefixesOf p, q ∈ paths

/-- Prefix closure of a path set. -/
def PrefixClosed (paths : Finset Str) : Prop :=
  ∀ p ∈ paths, ∀ q ∈ prefixesOf p, q ∈ paths

/-- Every stored path is in canonical form: equal to the '/'-join of its own
    non-empty segments (hence free of empty segments). -/
def CanonPaths (st : ParsedPaths) : Prop :=
  ∀ q ∈ st.paths, joinSegs (splitSegments q) = q

instance (paths pending : Finset Str) : Decidable (PrefixClosedExcept paths pending) :=
  inferInstanceAs (Decidable (∀ p ∈ paths, p ∉ pending → ∀ q ∈ prefixesOf p, q ∈ paths))

instance (paths : Finset Str) : Decidable (PrefixClosed paths) :=
  inferInstanceAs (Decidable (∀ p ∈ paths, ∀ q ∈ prefixesOf p, q ∈ paths))

instance (st : ParsedPaths) : Decidable (CanonPaths st) :=
  inferInstanceAs (Decidable (∀ q ∈ st.paths, joinSegs (splitSegments q) = q))

instance (s : Str) : Decidable (CleanSeg s) :=
  inferInstanceAs (Decidable (s ≠ [] ∧ '/' ∉ s))

instance (l : List Str) : Decidable (CleanSegs l) :=
  inferInstanceAs (Decidable (∀ s ∈ l, CleanSeg s))

/-- `syn::UseTree`, restricted to the fields the bundler reads. -/
inductive UseTree
  | path (ident : Str) (sub : UseTree)
  | name (ident : Str)
  | rename (ident ren : Str)
  | glob
  | group (items : List UseTree)

/-- `syn::Visibility`, restricted to the public/non-public distinction. -/
inductive Visibility
  | public
  | inherited
deriving DecidableEq

/-- `syn::ItemUse`, restricted to the visibility and the tree. -/
structure ItemUse where
  vis : Visibility
  tree : UseTree

mutual

/-- `extract_imported_paths` (src/cmd/bundle/mod.rs): the leaf paths of a
    use-tree; a rename contributes its rename, a glob contributes the bare
    current prefix. -/
def extract_imported_paths : UseTree → List Str → List (List Str)
  | .path ident sub, pre => extract_imported_paths sub (pre ++ [ident])
  | .name ident, pre => [pre ++ [ident]]
  | .rename _ ren, pre => [pre ++ [ren]]
  | .glob, pre => [pre]
  | .group items, pre => extractList items pre

/-- The `flat_map` over group items inside `extract_imported_paths`. -/
def extractList : List UseTree → List Str → List (List Str)
  | [], _ => []
  | t :: ts, pre => extract_imported_paths t pre ++ extractList ts pre

end

/-- One fold step of `wrap` inside `flatten_imported_paths`; the group arm is
    the `panic!("Unexpected group ...")`, embedded as `none`. -/
def wrapStep (tree segment : UseTree) : Option UseTree :=
  match segment with
  | .path ident _ => some (.path ident tree)
  | .name i => some (.name i)
  | .rename i r => some (.rename i r)
  | .glob => some .glob
  | .group _ => none

/-- `wrap` inside `flatten_imported_paths`: refold the accumulated prefix
    around a leaf, producing a public single-leaf use item. -/
def wrap (segments : List UseTree) (last0 : UseTree) : Option ItemUse :=
  (segments.reverse.foldlM wrapStep last0).map (fun tr => ⟨Visibility.public, tr⟩)

mutual

/-- `flatten_imported_paths` (src/cmd/bundle/mod.rs): expand a use-tree into
    single-leaf `pub use` items.  The path arm pushes the whole current node
    onto the prefix, exactly as the source clones `tree` into `new_prefix`. -/
def flatten_imported_paths : UseTree → List UseTree → Option (List ItemUse)
  | .path ident sub, pre => flatten_imported_paths sub (pre ++ [UseTree.path ident sub])
  | .name i, pre => (wrap pre (UseTree.name i)).map (fun u => [u])
  | .rename i r, pre => (wrap pre (UseTree.rename i r)).map (fun u => [u])
  | .glob, pre => (wrap pre UseTree.glob).map (fun u => [u])
  | .group items, pre => flattenList items pre

/-- The `flat_map` over group items inside `flatten_imported_paths`. -/
def flattenList : List UseTree → List UseTree → Option (List ItemUse)
  | [], _ => some []
  | t :: ts, pre => do
    let l1 ← flatten_imported_paths t pre
    let l2 ← flattenList ts pre
    pure (l1 ++ l2)

end

/-- `tranform_alias_and_fqn` (src/cmd/bundle/mod.rs; name as in the source). -/
def tranform_alias_and_fqn (alias0 import_path : Str) (segments : List Str) :
    Str × Str :=
  match segments with
  | [] => (alias0, import_path)
  | s0 :: _ =>
    let alias1 := import_path ++ '/' :: alias0
    let fully_qualified :=
      if s0 ≠ str "std" then import_path ++ '/' :: joinSegs segments
      else joinSegs segments
    (alias1, fully_qualified)

/-- A `#[cfg(...)]` argument as `is_test_module` parses it (`syn::Expr`,
    restricted to the bare-path case the code inspects). -/
inductive CfgArg
  | pathIdent (ident : Str)
  | otherExpr

/-- An attribute, restricted to what the bundler inspects. -/
inductive Attr
  | cfg (arg : CfgArg)
  | plain (name0 : Str)

/-- `syn::ItemMod`, restricted to the fields item filtering reads. -/
structure ItemMod where
  ident : Str
  attrs : List Attr

/-- `syn::Item`, restricted to the arms `filter_file_items` distinguishes. -/
inductive Item
  | mod (m : ItemMod)
  | use (u : ItemUse)
  | other (k : Nat)

/-- `is_test_module` (src/cmd/bundle/mod.rs). -/
def is_test_module (m : ItemMod) : Bool :=
  m.attrs.any (fun a =>
    match a with
    | .cfg (.pathIdent i) => decide (i = str "test")
    | _ => false)

/-- `is_pub_use` (src/cmd/bundle/mod.rs). -/
def is_pub_use (u : ItemUse) : Bool :=
  match u.vis with
  | .public => true
  | .inherited => false

/-- `Bundler::<ProcessLibraryFile>::is_used_in_binary`. -/
def is_used_in_binary (pp : ParsedPaths) (import_path : Str) (m : ItemMod) : Bool :=
  let mod_name := if import_path.isEmpty then m.ident else import_path ++ '/' :: m.ident
  pp.contains_path mod_name

/-- The per-item test inside the `pub use` arm of `filter_file_items`: first
    extracted path, last segment (`expect`, a panic on an empty path, embedded
    as `none`), derived alias, membership in `pub_use_used`. -/
def keepUse (pp : ParsedPaths) (import_path : Str) (ui : ItemUse) : Option Bool :=
  match (extract_imported_paths ui.tree []).head? with
  | none => some false
  | some path1 =>
    match path1.getLast? with
    | none => none
    | some a =>
      some (pp.is_pub_use_used (tranform_alias_and_fqn a import_path path1).1)

/-- The filtering loop over flattened use items inside `filter_file_items`. -/
def filterPubUses (pp : ParsedPaths) (import_path : Str) :
    List ItemUse → Option (List ItemUse)
  | [] => some []
  | ui :: rest => do
    let b ← keepUse pp import_path ui
    let tail ← filterPubUses pp import_path rest
    pure (if b then ui :: tail else tail)

/-- One iteration of the `filter_file_items` loop: the items an input item
    contributes to `new_items`. -/
def filterItem (pp : ParsedPaths) (import_path : Str) : Item → Option (List Item)
  | .mod m =>
    if is_test_module m || !is_used_in_binary pp import_path m then some []
    else some [Item.mod m]
  | .use u =>
    if is_pub_use u then
      match flatten_imported_paths u.tree [] with
      | none => none
      | some use_items =>
        (filterPubUses pp import_path use_items).map (fun l => l.map Item.use)
    else some [Item.use u]
  | .other k => some [Item.other k]

/-- `Bundler::<ProcessLibraryFile>::filter_file_items` (the drain/rebuild
    loop), with panics propagated as `none`. -/
def filter_file_items (pp : ParsedPaths) (import_path : Str) :
    List Item → Option (List Item)
  | [] => some []
  | it :: rest => do
    let l1 ← filterItem pp import_path it
    let l2 ← filter_file_items pp import_path rest
    pure (l1 ++ l2)

/-- The derived alias of a leaf path under an import path, in the words of the
    spec: `import_path + "/" + segs.last`. -/
def derivedAlias (import_path : Str) (p : List Str) : Str :=
  import_path ++ '/' :: p.getLastD []

/-- Retention test on a single-leaf use item: its derived alias is marked
    used. -/
def keepLeaf (pp : ParsedPaths) (import_path : Str) (ui : ItemUse) : Bool :=
  match (extract_imported_paths ui.tree []).head? with
  | some p => pp.is_pub_use_used (derivedAlias import_path p)
  | none => false

/-- Word characters of the regex `\b` boundary (`\w`), for the ASCII texts the
    bundler rewrites. -/
def isWordChar (c : Char) : Bool := c.isAlphanum || c = '_'

def crateTok : Str := str "crate::"

/-- Does `crate::\b` match at the start of `s`?  After the second ':' (a
    non-word character) the boundary holds exactly when the next character is
    a word character. -/
def crateMatchAt (s : Str) : Bool :=
  crateTok.isPrefixOf s &&
    (match s.drop 7 with
     | c :: _ => isWordChar c
     | [] => false)

/-- Is there a `crate::\b` match anywhere in `s`? -/
def hasCrateMatch : Str → Bool
  | [] => false
  | x :: rest => crateMatchAt (x :: rest) || hasCrateMatch rest

/-- Scanner of `Regex::replace_all(r"crate::\b", "crate::<name>::")`: leftmost
    match, emit the replacement, continue after the matched `crate::`.  The
    step counter only bounds the number of scan steps; the wrapper below sets
    it to the text length, which suffices because every step consumes at least
    one character. -/
def rewriteCrateAux (name0 : Str) : Nat → Str → Str
  | 0, s => s
  | Nat.succ _, [] => []
  | Nat.succ n, x :: rest =>
    if crateMatchAt (x :: rest) then
      crateTok ++ name0 ++ str "::" ++ rewriteCrateAux name0 n ((x :: rest).drop 7)
    else x :: rewriteCrateAux name0 n rest

/-- `Bundler::<ProcessLibraryFile>::post_process_output_string`: the textual
    `crate::` → `crate::<crate_name>::` rewrite. -/
def rewriteCrate (name0 content : Str) : Str :=
  rewriteCrateAux name0 content.length content

/-- A discovered crate together with whether its `src/lib.rs` exists (the only
    facts the Phase A and Phase C driver loops branch on). -/
structure CrateFs where
  name : Str
  hasLibRoot : Bool

/-- `Bundler::<ProcessBinaryFile>::collect_pub_use_decls` (Phase A driver
    loop), abstracted to its control flow: `fs::read_to_string(...lib.rs)` is
    followed by `.context(...)?`, so a missing library root aborts the whole
    run with the contextual message.  AST work is irrelevant to the claims
    settled on this model. -/
def collect_pub_use_decls : List CrateFs → Except Str Unit
  | [] => .ok ()
  | c :: rest =>
    if c.hasLibRoot then collect_pub_use_decls rest
    else .error (str "failed to read library file for crate " ++ c.name)

/-- `Bundler::<ProcessLibraryFile>::process_library_file`, abstracted to its
    error handling: a missing library root prints a message and returns `Ok`
    (skip); the Boolean records whether the crate was bundled. -/
def process_library_file (c : CrateFs) : Except Str Bool :=
  if c.hasLibRoot then .ok true else .ok false

/-- `Bundler::<CollectLibraryFiles>::collect_library_files` (Phase C driver
    loop): crates whose name is not a used path are skipped; the returned list
    is the order in which crate wrapper modules are appended to the output. -/
def collect_library_files (used : Finset Str) : List CrateFs → Except Str (List Str)
  | [] => .ok []
  | c :: rest =>
    if c.name ∉ used then collect_library_files used rest
    else do
      let processed ← process_library_file c
      let others ← collect_library_files used rest
      pure (if processed then c.name :: others else others)

/-- `Bundler::run`, restricted to the phases the claims examine: Phase A runs
    first and its error aborts the run; Phase C then determines the output
    order of crate wrapper modules.  The crate list argument stands for one
    iteration order of the crate `HashMap`. -/
def bundler_run (used : Finset Str) (crates : List CrateFs) : Except Str (List Str) := do
  collect_pub_use_decls crates
  collect_library_files used crates

/-- Is a use-tree node a `Path` node? (Prefixes accumulated by
    `flatten_imported_paths` consist of such nodes only.) -/
def UseTree.isPathNode : UseTree → Bool
  | .path _ _ => true
  | _ => false

/-- The path idents of a prefix of `Path` nodes. -/
def identsOf (pre : List UseTree) : List Str :=
  pre.map (fun t =>
    match t with
    | .path i _ => i
    | _ => [])

/-- The tree `wrap` rebuilds from a prefix of `Path` nodes around a leaf. -/
def chainTree (pre : List UseTree) (last0 : UseTree) : UseTree :=
  pre.foldr
    (fun x acc =>
      match x with
      | .path i _ => .path i acc
      | _ => acc)
    last0

theorem splitChar_ne_nil (c : Char) (l : Str) : splitChar c l ≠ [] := by
  induction l with
  | nil => simp [splitChar]
  | cons x xs ih =>
    simp only [splitChar]
    split
    · simp
    · split
      · simp
      · simp

theorem splitChar_not_mem (c : Char) (l : Str) : ∀ s ∈ splitChar c l, c ∉ s := by
  induction l with
  | nil => intro s hs; simp [splitChar] at hs; simp [hs]
  | cons x xs ih =>
    intro s hs
    simp only [splitChar] at hs
    by_cases hx : x = c
    · simp [hx] at hs
      rcases hs with h | h
      · simp [h]
      · exact ih s h
    · simp [hx] at hs
      rcases h : splitChar c xs with _ | ⟨y, ys⟩
      · exact absurd h (splitChar_ne_nil c xs)
      · rw [h] at hs
        simp at hs
        rcases hs with h1 | h1
        · subst h1
          intro hc
          rcases List.mem_cons.mp hc with h2 | h2
          · exact hx h2.symm
          · exact ih y (by simp [h]) h2
        · exact ih s (by simp [h, h1])

theorem splitChar_no_sep (c : Char) (l : Str) (h : c ∉ l) : splitChar c l = [l] := by
  induction l with
  | nil => simp [splitChar]
  | cons x xs ih =>
    simp only [splitChar]
    have hx : ¬ x = c := fun he => h (by simp [he])
    simp [hx, ih (fun hc => h (List.mem_cons_of_mem _ hc))]

theorem splitChar_append (c : Char) (xs ys : Str) (h : c ∉ xs) :
    splitChar c (xs ++ c :: ys) = xs :: splitChar c ys := by
  induction xs with
  | nil => simp [splitChar]
  | cons x rest ih =>
    have hx : ¬ x = c := fun he => h (by simp [he])
    have h2 : c ∉ rest := fun hc => h (List.mem_cons_of_mem _ hc)
    simp only [List.cons_append, splitChar]
    simp [hx, ih h2]

theorem joinSegs_cons (s : Str) (rest : List Str) (h : rest ≠ []) :
    joinSegs (s :: rest) = s ++ '/' :: joinSegs rest := by
  cases rest with
  | nil => exact absurd rfl h
  | cons y ys => simp [joinSegs]

theorem splitSegments_joinSegs (segs : List Str) (h : CleanSegs segs) :
    splitSegments (joinSegs segs) = segs := by
  induction segs with
  | nil => simp [joinSegs, splitSegments, splitChar]
  | cons s rest ih =>
    have hs : CleanSeg s := h s (by simp)
    have hrest : CleanSegs rest := fun t ht => h t (by simp [ht])
    cases rest with
    | nil =>
      simp [joinSegs, splitSegments, splitChar_no_sep '/' s hs.2]
      simp [List.isEmpty_iff, hs.1]
    | cons y ys =>
      rw [joinSegs_cons s (y :: ys) (by simp)]
      unfold splitSegments
      rw [splitChar_append '/' s (joinSegs (y :: ys)) hs.2]
      simp only [List.filter_cons]
      have : (!s.isEmpty) = true := by simp [List.isEmpty_iff, hs.1]
      rw [this]
      have := ih hrest
      unfold splitSegments at this
      simp [this]

theorem cleanSegs_splitSegments (p : Str) : CleanSegs (splitSegments p) := by
  intro s hs
  unfold splitSegments at hs
  rw [List.mem_filter] at hs
  exact ⟨by simpa [List.isEmpty_iff] using hs.2, splitChar_not_mem '/' p s hs.1⟩

theorem joinSegs_ne_nil (l : List Str) (h : CleanSegs l) (hne : l ≠ []) : joinSegs l ≠ [] := by
  cases l with
  | nil => exact absurd rfl hne
  | cons s rest =>
    cases rest with
    | nil => exact (h s (by simp)).1
    | cons y ys =>
      rw [joinSegs_cons s (y :: ys) (by simp)]
      rcases s with _ | ⟨a, as⟩
      · exact absurd rfl (h [] (by simp)).1
      · simp

theorem joinSegs_append_last (done : List Str) (s : Str) :
    joinSegs (done ++ [s]) = if done = [] then s else joinSegs done ++ '/' :: s := by
  induction done with
  | nil => simp [joinSegs]
  | cons d rest ih =>
    simp only [List.cons_append]
    rw [joinSegs_cons d (rest ++ [s]) (by simp)]
    cases h : rest with
    | nil => simp [joinSegs, h]
    | cons y ys =>
      subst h
      rw [ih]
      simp [joinSegs_cons d (y :: ys) (by simp)]
theorem insertSegsAux_decls (recIns : ParsedPaths → Str → ParsedPaths)
    (hR : ∀ st q, (recIns st q).pub_use_decls = st.pub_use_decls) :
    ∀ (segs : List Str) (st : ParsedPaths) (acc : Str),
      (insertSegsAux recIns st acc segs).pub_use_decls = st.pub_use_decls := by
  intro segs
  induction segs with
  | nil => intro st acc; simp [insertSegsAux]
  | cons seg rest ih =>
    intro st acc
    simp only [insertSegsAux]
    rw [ih]
    generalize (if acc.isEmpty then seg else acc ++ '/' :: seg) = cur
    cases hl : lookupDecl cur st.pub_use_decls with
    | none => simp [hl]
    | some fq =>
      simp only [hl]
      by_cases hm : fq ∈ insert cur st.paths
      · simp [hm]
      · simp [hm, hR]

theorem insertSegsAux_paths_mono (recIns : ParsedPaths → Str → ParsedPaths)
    (hR : ∀ st q, st.paths ⊆ (recIns st q).paths) :
    ∀ (segs : List Str) (st : ParsedPaths) (acc : Str),
      st.paths ⊆ (insertSegsAux recIns st acc segs).paths := by
  intro segs
  induction segs with
  | nil => intro st acc; simp [insertSegsAux]
  | cons seg rest ih =>
    intro st acc
    simp only [insertSegsAux]
    generalize (if acc.isEmpty then seg else acc ++ '/' :: seg) = cur
    cases hl : lookupDecl cur st.pub_use_decls with
    | none =>
      simp only [hl]
      refine subset_trans ?_ (ih _ _)
      exact Finset.subset_insert _ _
    | some fq =>
      simp only [hl]
      by_cases hm : fq ∈ insert cur st.paths
      · simp only [hm, if_pos]
        refine subset_trans ?_ (ih _ _)
        exact Finset.subset_insert _ _
      · simp only [hm, if_neg, not_false_iff]
        refine subset_trans ?_ (ih _ _)
        refine subset_trans (Finset.subset_insert cur st.paths) ?_
        exact hR ⟨insert cur st.paths, st.pub_use_decls, st.pub_use_used⟩ fq

theorem insertSegsAux_used_mono (recIns : ParsedPaths → Str → ParsedPaths)
    (hR : ∀ st q, st.pub_use_used ⊆ (recIns st q).pub_use_used) :
    ∀ (segs : List Str) (st : ParsedPaths) (acc : Str),
      st.pub_use_used ⊆ (insertSegsAux recIns st acc segs).pub_use_used := by
  intro segs
  induction segs with
  | nil => intro st acc; simp [insertSegsAux]
  | cons seg rest ih =>
    intro st acc
    simp only [insertSegsAux]
    generalize (if acc.isEmpty then seg else acc ++ '/' :: seg) = cur
    cases hl : lookupDecl cur st.pub_use_decls with
    | none =>
      simp only [hl]
      refine subset_trans ?_ (ih _ _)
      exact Finset.Subset.refl _
    | some fq =>
      simp only [hl]
      by_cases hm : fq ∈ insert cur st.paths
      · simp only [hm, if_pos]
        refine subset_trans ?_ (ih _ _)
        exact Finset.subset_insert _ _
      · simp only [hm, if_neg, not_false_iff]
        refine subset_trans ?_ (ih _ _)
        refine subset_trans (hR ⟨insert cur st.paths, st.pub_use_decls, st.pub_use_used⟩ fq) ?_
        exact Finset.subset_insert _ _

theorem insert_path_decls (fuel : Nat) (st : ParsedPaths) (p : Str) :
    (ParsedPaths.insert_path fuel st p).pub_use_decls = st.pub_use_decls := by
  induction fuel generalizing st p with
  | zero =>
    simp only [ParsedPaths.insert_path, insertPathCore]
    rw [insertSegsAux_decls _ (fun st q => rfl)]
  | succ f ih =>
    simp only [ParsedPaths.insert_path, insertPathCore]
    rw [insertSegsAux_decls _ (fun st q => ih st q)]

theorem insert_path_paths_mono (fuel : Nat) (st : ParsedPaths) (p : Str) :
    st.paths ⊆ (ParsedPaths.insert_path fuel st p).paths := by
  induction fuel generalizing st p with
  | zero =>
    simp only [ParsedPaths.insert_path, insertPathCore]
    refine subset_trans ?_ (insertSegsAux_paths_mono _ (fun st q => Finset.Subset.refl _) _ _ _)
    exact Finset.subset_insert _ _
  | succ f ih =>
    simp only [ParsedPaths.insert_path, insertPathCore]
    refine subset_trans ?_ (insertSegsAux_paths_mono _ (fun st q => ih st q) _ _ _)
    exact Finset.subset_insert _ _

theorem insert_path_used_mono (fuel : Nat) (st : ParsedPaths) (p : Str) :
    st.pub_use_used ⊆ (ParsedPaths.insert_path fuel st p).pub_use_used := by
  induction fuel generalizing st p with
  | zero =>
    simp only [ParsedPaths.insert_path, insertPathCore]
    refine subset_trans ?_ (insertSegsAux_used_mono _ (fun st q => Finset.Subset.refl _) _ _ _)
    exact Finset.Subset.refl _
  | succ f ih =>
    simp only [ParsedPaths.insert_path, insertPathCore]
    refine subset_trans ?_ (insertSegsAux_used_mono _ (fun st q => ih st q) _ _ _)
    exact Finset.Subset.refl _

theorem insert_path_full_mem (fuel : Nat) (st : ParsedPaths) (p : Str) :
    joinSegs (splitSegments p) ∈ (ParsedPaths.insert_path fuel st p).paths := by
  cases fuel with
  | zero =>
    simp only [ParsedPaths.insert_path, insertPathCore]
    exact insertSegsAux_paths_mono _ (fun st q => Finset.Subset.refl _) _ _ _
      (Finset.mem_insert_self _ _)
  | succ f =>
    simp only [ParsedPaths.insert_path, insertPathCore]
    exact insertSegsAux_paths_mono _ (fun st q => insert_path_paths_mono f st q) _ _ _
      (Finset.mem_insert_self _ _)
theorem acc_step (done : List Str) (seg : Str) (hd : CleanSegs done) :
    (if (joinSegs done).isEmpty then seg else joinSegs done ++ '/' :: seg)
      = joinSegs (done ++ [seg]) := by
  rw [joinSegs_append_last]
  by_cases h : done = []
  · simp [h, joinSegs]
  · have hne : joinSegs done ≠ [] := joinSegs_ne_nil done hd h
    simp [h, List.isEmpty_iff, hne]

theorem canonPaths_mk (P : Finset Str) (d d2 : List (Str × Str)) (u u2 : Finset Str) :
    CanonPaths ⟨P, d, u⟩ → CanonPaths ⟨P, d2, u2⟩ := fun h => h

theorem canonPaths_insert (st : ParsedPaths) (q : Str)
    (hq : joinSegs (splitSegments q) = q) (h : CanonPaths st) :
    CanonPaths ⟨insert q st.paths, st.pub_use_decls, st.pub_use_used⟩ := by
  intro x hx
  rcases Finset.mem_insert.mp hx with h1 | h1
  · subst h1; exact hq
  · exact h x h1

theorem insertSegsAux_canon (recIns : ParsedPaths → Str → ParsedPaths)
    (hR : ∀ st q, CanonPaths st → CanonPaths (recIns st q)) :
    ∀ (segs done : List Str) (st : ParsedPaths) (acc : Str),
      acc = joinSegs done → CleanSegs segs → CleanSegs done → CanonPaths st →
      CanonPaths (insertSegsAux recIns st acc segs) := by
  intro segs
  induction segs with
  | nil => intro done st acc hacc hs hd hc; simpa [insertSegsAux] using hc
  | cons seg rest ih =>
    intro done st acc hacc hs hd hc
    subst hacc
    simp only [insertSegsAux]
    rw [acc_step done seg hd]
    have hdone2 : CleanSegs (done ++ [seg]) := by
      intro s hs2
      rcases List.mem_append.mp hs2 with h1 | h1
      · exact hd s h1
      · simp at h1
        subst h1
        exact hs s (by simp)
    have hrest : CleanSegs rest := fun s h => hs s (by simp [h])
    have hcur : joinSegs (splitSegments (joinSegs (done ++ [seg]))) = joinSegs (done ++ [seg]) := by
      rw [splitSegments_joinSegs _ hdone2]
    have hc1 : CanonPaths ⟨insert (joinSegs (done ++ [seg])) st.paths,
        st.pub_use_decls, st.pub_use_used⟩ := canonPaths_insert st _ hcur hc
    cases hl : lookupDecl (joinSegs (done ++ [seg])) st.pub_use_decls with
    | none =>
      simp only [hl]
      exact ih (done ++ [seg]) _ _ rfl hrest hdone2 hc1
    | some fq =>
      simp only [hl]
      by_cases hm : fq ∈ insert (joinSegs (done ++ [seg])) st.paths
      · simp only [hm, if_pos]
        refine ih (done ++ [seg]) _ _ rfl hrest hdone2 ?_
        exact fun x hx => hc1 x hx
      · simp only [hm, if_neg, not_false_iff]
        refine ih (done ++ [seg]) _ _ rfl hrest hdone2 ?_
        have := hR ⟨insert (joinSegs (done ++ [seg])) st.paths,
          st.pub_use_decls, st.pub_use_used⟩ fq hc1
        exact fun x hx => this x hx

theorem insert_path_canon (fuel : Nat) :
    ∀ (st : ParsedPaths) (p : Str), CanonPaths st →
      CanonPaths (ParsedPaths.insert_path fuel st p) := by
  induction fuel with
  | zero =>
    intro st p hc
    simp only [ParsedPaths.insert_path, insertPathCore]
    refine insertSegsAux_canon _ (fun st q h => h) (splitSegments p) [] _ [] rfl
      (cleanSegs_splitSegments p) (fun s h => absurd h (List.not_mem_nil s)) ?_
    exact canonPaths_insert st _ (by rw [splitSegments_joinSegs _ (cleanSegs_splitSegments p)]) hc
  | succ f ih =>
    intro st p hc
    simp only [ParsedPaths.insert_path, insertPathCore]
    refine insertSegsAux_canon _ (fun st q h => ih st q h) (splitSegments p) [] _ [] rfl
      (cleanSegs_splitSegments p) (fun s h => absurd h (List.not_mem_nil s)) ?_
    exact canonPaths_insert st _ (by rw [splitSegments_joinSegs _ (cleanSegs_splitSegments p)]) hc

theorem insert_path_normalize (fuel : Nat) (st : ParsedPaths) (p : Str) :
    ParsedPaths.insert_path fuel st p
      = ParsedPaths.insert_path fuel st (joinSegs (splitSegments p)) := by
  cases fuel with
  | zero =>
    simp only [ParsedPaths.insert_path, insertPathCore]
    rw [splitSegments_joinSegs _ (cleanSegs_splitSegments p)]
  | succ f =>
    simp only [ParsedPaths.insert_path, insertPathCore]
    rw [splitSegments_joinSegs _ (cleanSegs_splitSegments p)]
theorem pce_mk (P : Finset Str) (d d2 : List (Str × Str)) (u u2 : Finset Str)
    (pend : Finset Str) :
    PrefixClosedExcept (ParsedPaths.mk P d u).paths pend →
    PrefixClosedExcept (ParsedPaths.mk P d2 u2).paths pend := fun h => h

theorem prefixesOf_join (segs : List Str) (h : CleanSegs segs) :
    prefixesOf (joinSegs segs)
      = (List.range segs.length).map (fun k => joinSegs (segs.take (k + 1))) := by
  unfold prefixesOf
  rw [splitSegments_joinSegs segs h]

theorem mem_prefixesOf_join (segs : List Str) (h : CleanSegs segs) (q : Str) :
    q ∈ prefixesOf (joinSegs segs) ↔
      ∃ k, k < segs.length ∧ q = joinSegs (segs.take (k + 1)) := by
  rw [prefixesOf_join segs h]
  simp [List.mem_map, eq_comm]

theorem insertSegsAux_closed (recIns : ParsedPaths → Str → ParsedPaths)
    (hRmono : ∀ st q, st.paths ⊆ (recIns st q).paths)
    (hRclosed : ∀ st q P, PrefixClosedExcept st.paths P →
      PrefixClosedExcept (recIns st q).paths P) :
    ∀ (segs done : List Str) (st : ParsedPaths) (acc : Str) (P : Finset Str),
      acc = joinSegs done → CleanSegs segs → CleanSegs done →
      (∀ k, 1 ≤ k → k ≤ done.length → joinSegs (done.take k) ∈ st.paths) →
      PrefixClosedExcept st.paths (insert (joinSegs (done ++ segs)) P) →
      PrefixClosedExcept (insertSegsAux recIns st acc segs).paths P := by
  intro segs
  induction segs with
  | nil =>
    intro done st acc P hacc hs hd hpre hpce
    simp only [List.append_nil] at hpce
    simp only [insertSegsAux]
    intro p hp hpnot q hq
    by_cases hfull : p = joinSegs done
    · subst hfull
      rcases (mem_prefixesOf_join done hd q).mp hq with ⟨k, hk, hq2⟩
      subst hq2
      exact hpre (k + 1) (by omega) (by omega)
    · refine hpce p hp ?_ q hq
      intro hmem
      rcases Finset.mem_insert.mp hmem with h1 | h1
      · exact hfull h1
      · exact hpnot h1
  | cons seg rest ih =>
    intro done st acc P hacc hs hd hpre hpce
    subst hacc
    simp only [insertSegsAux]
    rw [acc_step done seg hd]
    have hdone2 : CleanSegs (done ++ [seg]) := by
      intro s hs2
      rcases List.mem_append.mp hs2 with h1 | h1
      · exact hd s h1
      · simp at h1
        subst h1
        exact hs s (by simp)
    have hrest : CleanSegs rest := fun s h => hs s (by simp [h])
    have hfulleq : joinSegs (done ++ seg :: rest) = joinSegs ((done ++ [seg]) ++ rest) := by
      rw [List.append_assoc]
      simp
    -- prefix-present for the extended done, in st1
    have hpre1 : ∀ k, 1 ≤ k → k ≤ (done ++ [seg]).length →
        joinSegs ((done ++ [seg]).take k)
          ∈ (insert (joinSegs (done ++ [seg])) st.paths : Finset Str) := by
      intro k hk1 hk2
      simp only [List.length_append, List.length_singleton] at hk2
      by_cases hk3 : k ≤ done.length
      · rw [List.take_append_of_le_length hk3]
        exact Finset.mem_insert_of_mem (hpre k hk1 hk3)
      · have : k = done.length + 1 := by omega
        subst this
        have : (done ++ [seg]).take (done.length + 1) = done ++ [seg] := by
          have hlen : (done ++ [seg]).length = done.length + 1 := by simp
          rw [← hlen, List.take_length]
        rw [this]
        exact Finset.mem_insert_self _ _
    -- closure-except for st1
    have hpce1 : PrefixClosedExcept
        (insert (joinSegs (done ++ [seg])) st.paths : Finset Str)
        (insert (joinSegs ((done ++ [seg]) ++ rest)) P) := by
      intro p hp hpnot q hq
      rcases Finset.mem_insert.mp hp with h1 | h1
      · subst h1
        rcases (mem_prefixesOf_join (done ++ [seg]) hdone2 q).mp hq with ⟨k, hk, hq2⟩
        subst hq2
        exact hpre1 (k + 1) (by omega) (by simpa using Nat.succ_le_of_lt hk)
      · refine Finset.mem_insert_of_mem ?_
        refine hpce p h1 ?_ q hq
        rw [Finset.mem_insert] at hpnot ⊢
        rw [hfulleq]
        exact hpnot
    cases hl : lookupDecl (joinSegs (done ++ [seg])) st.pub_use_decls with
    | none =>
      simp only [hl]
      refine ih (done ++ [seg]) _ _ P rfl hrest hdone2 hpre1 ?_
      exact hpce1
    | some fq =>
      simp only [hl]
      by_cases hm : fq ∈ insert (joinSegs (done ++ [seg])) st.paths
      · simp only [hm, if_pos]
        refine ih (done ++ [seg]) _ _ P rfl hrest hdone2 hpre1 ?_
        exact hpce1
      · simp only [hm, if_neg, not_false_iff]
        have hmono2 := hRmono ⟨insert (joinSegs (done ++ [seg])) st.paths,
          st.pub_use_decls, st.pub_use_used⟩ fq
        refine ih (done ++ [seg]) _ _ P rfl hrest hdone2
          (fun k hk1 hk2 => hmono2 (hpre1 k hk1 hk2)) ?_
        exact hRclosed ⟨insert (joinSegs (done ++ [seg])) st.paths,
          st.pub_use_decls, st.pub_use_used⟩ fq _ hpce1

theorem insertPathCore_closed (recIns : ParsedPaths → Str → ParsedPaths)
    (hRmono : ∀ st q, st.paths ⊆ (recIns st q).paths)
    (hRclosed : ∀ st q P, PrefixClosedExcept st.paths P →
      PrefixClosedExcept (recIns st q).paths P) :
    ∀ (st : ParsedPaths) (p : Str) (P : Finset Str),
      PrefixClosedExcept st.paths P →
      PrefixClosedExcept (insertPathCore recIns st p).paths P := by
  intro st p P hpce
  simp only [insertPathCore]
  refine insertSegsAux_closed recIns hRmono hRclosed (splitSegments p) [] _ [] P rfl
    (cleanSegs_splitSegments p) (fun s h => absurd h (List.not_mem_nil s))
    (fun k hk1 hk2 => by simp at hk2; omega) ?_
  intro q hq hqnot r hr
  rcases Finset.mem_insert.mp hq with h1 | h1
  · subst h1
    rw [Finset.mem_insert] at hqnot
    simp at hqnot
  · exact Finset.mem_insert_of_mem
      (hpce q h1 (fun hq2 => hqnot (Finset.mem_insert_of_mem hq2)) r hr)

theorem insert_path_closed (fuel : Nat) :
    ∀ (st : ParsedPaths) (p : Str) (P : Finset Str),
      PrefixClosedExcept st.paths P →
      PrefixClosedExcept (ParsedPaths.insert_path fuel st p).paths P := by
  induction fuel with
  | zero =>
    intro st p P h
    exact insertPathCore_closed _ (fun st q => Finset.Subset.refl _)
      (fun st q P h2 => h2) st p P h
  | succ f ih =>
    intro st p P h
    exact insertPathCore_closed _ (fun st q => insert_path_paths_mono f st q)
      (fun st q P h2 => ih st q P h2) st p P h

theorem prefixClosed_iff_except (paths : Finset Str) :
    PrefixClosed paths ↔ PrefixClosedExcept paths ∅ := by
  unfold PrefixClosed PrefixClosedExcept
  simp
/-- Claim C1: after any sequence of `insert_path` calls (any fuel each, any
    alias table contents), starting from a prefix-closed path set — in
    particular the empty initial Path Index — the path set stays prefix
    closed: every non-empty '/'-join prefix of a stored path is stored. -/
theorem claim_c1 (calls : List (Nat × Str)) (st : ParsedPaths)
    (h : PrefixClosed st.paths) :
    PrefixClosed
      ((calls.foldl (fun s c => ParsedPaths.insert_path c.1 s c.2) st).paths) := by
  induction calls generalizing st with
  | nil => simpa using h
  | cons c rest ih =>
    simp only [List.foldl_cons]
    refine ih _ ?_
    rw [prefixClosed_iff_except] at h ⊢
    exact insert_path_closed c.1 st c.2 ∅ h

theorem claim_c1_witness :
    PrefixClosed (ParsedPaths.mk ∅ [(str "algorist/x", str "algorist/deep/thing")] ∅).paths ∧
    PrefixClosed
      (([(5, str "algorist/x"), (5, str "algorist/io/read")].foldl
          (fun s c => ParsedPaths.insert_path c.1 s c.2)
          (ParsedPaths.mk ∅ [(str "algorist/x", str "algorist/deep/thing")] ∅)).paths) :=
  ⟨by decide, claim_c1 _ _ (by decide)⟩

theorem lookupDecl_mem (k : Str) (decls : List (Str × Str)) (v : Str)
    (h : lookupDecl k decls = some v) : (k, v) ∈ decls := by
  induction decls with
  | nil => simp [lookupDecl] at h
  | cons kv rest ih =>
    rcases kv with ⟨a, w⟩
    simp only [lookupDecl] at h
    by_cases ha : a = k
    · subst ha
      simp at h
      subst h
      simp
    · simp [ha] at h
      exact List.mem_cons_of_mem _ (ih h)

theorem insertSegsAux_hits (recIns : ParsedPaths → Str → ParsedPaths)
    (hRmonoP : ∀ st q, st.paths ⊆ (recIns st q).paths)
    (hRmonoU : ∀ st q, st.pub_use_used ⊆ (recIns st q).pub_use_used)
    (hRdecls : ∀ st q, (recIns st q).pub_use_decls = st.pub_use_decls)
    (hRcanon : ∀ st q, CanonPaths st → CanonPaths (recIns st q))
    (hRins : ∀ st q, joinSegs (splitSegments q) ∈ (recIns st q).paths) :
    ∀ (segs done : List Str) (st : ParsedPaths) (acc : Str),
      acc = joinSegs done → CleanSegs segs → CleanSegs done → CanonPaths st →
      ∀ k, k < segs.length →
        ∀ q, lookupDecl (joinSegs ((done ++ segs).take (done.length + k + 1)))
              st.pub_use_decls = some q →
          joinSegs (splitSegments q) ∈ (insertSegsAux recIns st acc segs).paths ∧
          joinSegs ((done ++ segs).take (done.length + k + 1))
            ∈ (insertSegsAux recIns st acc segs).pub_use_used := by
  intro segs
  induction segs with
  | nil =>
    intro done st acc hacc hs hd hc k hk
    simp at hk
  | cons seg rest ih =>
    intro done st acc hacc hs hd hc k hk q hq
    subst hacc
    have hdone2 : CleanSegs (done ++ [seg]) := by
      intro s hs2
      rcases List.mem_append.mp hs2 with h1 | h1
      · exact hd s h1
      · simp at h1
        subst h1
        exact hs s (by simp)
    have hrest : CleanSegs rest := fun s h => hs s (by simp [h])
    have hsplit : (done ++ seg :: rest) = (done ++ [seg]) ++ rest := by
      rw [List.append_assoc]
      simp
    have hlen1 : ((done : List Str) ++ [seg]).length = done.length + 1 := by simp
    have hcanon1 : CanonPaths ⟨insert (joinSegs (done ++ [seg])) st.paths,
        st.pub_use_decls, st.pub_use_used⟩ :=
      canonPaths_insert st _ (by rw [splitSegments_joinSegs _ hdone2]) hc
    simp only [insertSegsAux]
    rw [acc_step done seg hd]
    cases k with
    | zero =>
      -- the hit happens at this very step
      have hcur : (done ++ seg :: rest).take (done.length + 0 + 1) = done ++ [seg] := by
        rw [hsplit, List.take_append_of_le_length (by omega)]
        have hlen2 : done.length + 0 + 1 = ((done : List Str) ++ [seg]).length := by
          omega
        rw [hlen2, List.take_length]
      rw [hcur] at hq ⊢
      simp only [hq]
      constructor
      · by_cases hm : q ∈ insert (joinSegs (done ++ [seg])) st.paths
        · simp only [hm, if_pos]
          have hqc : joinSegs (splitSegments q) = q := hcanon1 q hm
          rw [hqc]
          refine insertSegsAux_paths_mono recIns hRmonoP rest _ _ ?_
          exact hm
        · simp only [hm, if_neg, not_false_iff]
          refine insertSegsAux_paths_mono recIns hRmonoP rest _ _ ?_
          exact hRins ⟨insert (joinSegs (done ++ [seg])) st.paths,
            st.pub_use_decls, st.pub_use_used⟩ q
      · by_cases hm : q ∈ insert (joinSegs (done ++ [seg])) st.paths
        · simp only [hm, if_pos]
          refine insertSegsAux_used_mono recIns hRmonoU rest _ _ ?_
          exact Finset.mem_insert_self _ _
        · simp only [hm, if_neg, not_false_iff]
          refine insertSegsAux_used_mono recIns hRmonoU rest _ _ ?_
          exact Finset.mem_insert_self _ _
    | succ k2 =>
      -- the hit happens at a later step: use the inductive hypothesis
      have harith : done.length + (k2 + 1) + 1 = ((done : List Str) ++ [seg]).length + k2 + 1 := by
        omega
      rw [hsplit, harith] at hq ⊢
      have hk2 : k2 < rest.length := by simpa using hk
      cases hl : lookupDecl (joinSegs (done ++ [seg])) st.pub_use_decls with
      | none =>
        simp only [hl]
        exact ih (done ++ [seg]) _ _ rfl hrest hdone2 hcanon1 k2 hk2 q hq
      | some fq =>
        simp only [hl]
        by_cases hm : fq ∈ insert (joinSegs (done ++ [seg])) st.paths
        · simp only [hm, if_pos]
          exact ih (done ++ [seg])
            ⟨insert (joinSegs (done ++ [seg])) st.paths, st.pub_use_decls,
              insert (joinSegs (done ++ [seg])) st.pub_use_used⟩
            _ rfl hrest hdone2 (fun x hx => hcanon1 x hx) k2 hk2 q hq
        · simp only [hm, if_neg, not_false_iff]
          have hcan2 := hRcanon ⟨insert (joinSegs (done ++ [seg])) st.paths,
            st.pub_use_decls, st.pub_use_used⟩ fq hcanon1
          refine ih (done ++ [seg])
            ⟨(recIns ⟨insert (joinSegs (done ++ [seg])) st.paths, st.pub_use_decls,
                st.pub_use_used⟩ fq).paths,
              (recIns ⟨insert (joinSegs (done ++ [seg])) st.paths, st.pub_use_decls,
                st.pub_use_used⟩ fq).pub_use_decls,
              insert (joinSegs (done ++ [seg]))
                (recIns ⟨insert (joinSegs (done ++ [seg])) st.paths, st.pub_use_decls,
                  st.pub_use_used⟩ fq).pub_use_used⟩
            _ rfl hrest hdone2 (fun x hx => hcan2 x hx) k2 hk2 q ?_
          show lookupDecl _ (recIns _ _).pub_use_decls = some q
          rw [hRdecls]
          exact hq
/-- Claim C2 counterexample: with the alias table mapping `"a"` to the
    non-canonical target `"b//"`, inserting `"a"` hits the alias (the prefix
    `"a"` of `"a"` is aliased) yet the raw target string `"b//"` is not in the
    path set afterwards — only its normalization `"b"` is.  So the claim "q is
    in the paths set" fails for arbitrary alias table contents. -/
theorem claim_c2_counterexample :
    lookupDecl (str "a")
        (ParsedPaths.mk ∅ [(str "a", str "b//")] ∅).pub_use_decls
      = some (str "b//") ∧
    str "a" ∈ prefixesOf (str "a") ∧
    str "b//" ∉
      (ParsedPaths.insert_path 9 (ParsedPaths.mk ∅ [(str "a", str "b//")] ∅)
          (str "a")).paths :=
  ⟨by decide, by decide, by decide⟩

/-- Claim C2 (amended): starting from a canonical Path Index (all stored paths
    are '/'-joins of their own non-empty segments; the empty index
    qualifies) and with fuel for at least one alias-target recursion, after
    `insert_path p`, whenever `aliases[pfx] = q` for a non-empty prefix `pfx`
    of `p`, the normalization of `q` (equal to `q` itself whenever `q` is a
    canonical path, as every alias target built by Phase A is) is in `paths`,
    and `pfx` is in `alias_hits` (`pub_use_used`). -/
theorem claim_c2_amended (fuel : Nat) (st : ParsedPaths) (p pfx q : Str)
    (hfuel : 1 ≤ fuel) (hcanon : CanonPaths st)
    (hpfx : pfx ∈ prefixesOf p)
    (hq : lookupDecl pfx st.pub_use_decls = some q) :
    joinSegs (splitSegments q) ∈ (ParsedPaths.insert_path fuel st p).paths ∧
    pfx ∈ (ParsedPaths.insert_path fuel st p).pub_use_used := by
  cases fuel with
  | zero => omega
  | succ f =>
    simp only [ParsedPaths.insert_path, insertPathCore]
    unfold prefixesOf at hpfx
    simp only [List.mem_map, List.mem_range] at hpfx
    obtain ⟨k, hk, hpfx2⟩ := hpfx
    subst hpfx2
    have hmain := insertSegsAux_hits (fun st1 q2 => ParsedPaths.insert_path f st1 q2)
      (fun st2 q2 => insert_path_paths_mono f st2 q2)
      (fun st2 q2 => insert_path_used_mono f st2 q2)
      (fun st2 q2 => insert_path_decls f st2 q2)
      (fun st2 q2 h => insert_path_canon f st2 q2 h)
      (fun st2 q2 => insert_path_full_mem f st2 q2)
      (splitSegments p) []
      ⟨insert (joinSegs (splitSegments p)) st.paths, st.pub_use_decls,
        st.pub_use_used⟩
      [] rfl (cleanSegs_splitSegments p)
      (fun s h => absurd h (List.not_mem_nil s))
      (canonPaths_insert st _
        (by rw [splitSegments_joinSegs _ (cleanSegs_splitSegments p)]) hcanon)
      k hk q (by simpa using hq)
    simpa using hmain

theorem claim_c2_witness :
    (CanonPaths (ParsedPaths.mk ∅ [(str "a", str "b/c")] ∅) ∧
      str "a" ∈ prefixesOf (str "a/x") ∧
      lookupDecl (str "a") (ParsedPaths.mk ∅ [(str "a", str "b/c")] ∅).pub_use_decls
        = some (str "b/c")) ∧
    (joinSegs (splitSegments (str "b/c"))
        ∈ (ParsedPaths.insert_path 1 (ParsedPaths.mk ∅ [(str "a", str "b/c")] ∅)
            (str "a/x")).paths ∧
      str "a" ∈ (ParsedPaths.insert_path 1 (ParsedPaths.mk ∅ [(str "a", str "b/c")] ∅)
            (str "a/x")).pub_use_used) :=
  ⟨⟨by decide, by decide, by decide⟩,
    claim_c2_amended 1 (ParsedPaths.mk ∅ [(str "a", str "b/c")] ∅)
      (str "a/x") (str "a") (str "b/c") (by omega) (by decide) (by decide) (by decide)⟩

/-- Claim C10: `insert_path` normalizes its argument — inserting any string
    has exactly the same effect on the whole Path Index as inserting the
    '/'-join of its non-empty segments; and starting from a canonical index
    (such as the empty one) every stored path stays canonical, i.e. free of
    empty segments. -/
theorem claim_c10 (fuel : Nat) (st : ParsedPaths) (p : Str) (h : CanonPaths st) :
    ParsedPaths.insert_path fuel st p
      = ParsedPaths.insert_path fuel st (joinSegs (splitSegments p)) ∧
    CanonPaths (ParsedPaths.insert_path fuel st p) :=
  ⟨insert_path_normalize fuel st p, insert_path_canon fuel st p h⟩

theorem claim_c10_witness :
    CanonPaths ParsedPaths.new ∧
    (ParsedPaths.insert_path 3 ParsedPaths.new (str "/a//b/")
        = ParsedPaths.insert_path 3 ParsedPaths.new (str "a/b") ∧
      CanonPaths (ParsedPaths.insert_path 3 ParsedPaths.new (str "/a//b/"))) :=
  ⟨by decide,
    (claim_c10 3 ParsedPaths.new (str "/a//b/") (by decide)).1,
    (claim_c10 3 ParsedPaths.new (str "/a//b/") (by decide)).2⟩
theorem foldlM_option_append {α β : Type} (f : β → α → Option β) (b : β)
    (xs ys : List α) :
    (xs ++ ys).foldlM f b = (xs.foldlM f b).bind (fun c => ys.foldlM f c) := by
  induction xs generalizing b with
  | nil => simp [List.foldlM]
  | cons x xs ih =>
    simp only [List.cons_append, List.foldlM]
    cases f b x <;> simp [ih]

theorem isPathNode_iff (x : UseTree) :
    x.isPathNode = true ↔ ∃ i s, x = UseTree.path i s := by
  cases x <;> simp [UseTree.isPathNode]

theorem wrapFold_allPaths (pre : List UseTree) (last0 : UseTree)
    (h : ∀ x ∈ pre, x.isPathNode = true) :
    pre.reverse.foldlM wrapStep last0 = some (chainTree pre last0) := by
  induction pre with
  | nil => simp [chainTree, List.foldlM]
  | cons x xs ih =>
    obtain ⟨i, s, hx⟩ := (isPathNode_iff x).mp (h x (by simp))
    subst hx
    simp only [List.reverse_cons]
    rw [foldlM_option_append]
    rw [ih (fun y hy => h y (by simp [hy]))]
    simp [List.foldlM, wrapStep, chainTree]

theorem wrap_allPaths (pre : List UseTree) (last0 : UseTree)
    (h : ∀ x ∈ pre, x.isPathNode = true) :
    wrap pre last0 = some ⟨Visibility.public, chainTree pre last0⟩ := by
  unfold wrap
  rw [wrapFold_allPaths pre last0 h]
  rfl

theorem identsOf_append (pre : List UseTree) (x : UseTree) :
    identsOf (pre ++ [x]) = identsOf pre ++ identsOf [x] := by
  simp [identsOf]

theorem extract_chainTree (pre : List UseTree) (last0 : UseTree) (acc : List Str)
    (h : ∀ x ∈ pre, x.isPathNode = true) :
    extract_imported_paths (chainTree pre last0) acc
      = extract_imported_paths last0 (acc ++ identsOf pre) := by
  induction pre generalizing acc with
  | nil => simp [chainTree, identsOf]
  | cons x xs ih =>
    obtain ⟨i, s, hx⟩ := (isPathNode_iff x).mp (h x (by simp))
    subst hx
    simp only [chainTree, List.foldr_cons]
    have : extract_imported_paths
        (UseTree.path i (chainTree xs last0)) acc
        = extract_imported_paths (chainTree xs last0) (acc ++ [i]) := by
      simp [extract_imported_paths]
    rw [show (List.foldr
        (fun x acc2 =>
          match x with
          | UseTree.path i2 _ => UseTree.path i2 acc2
          | _ => acc2) last0 xs) = chainTree xs last0 from rfl]
    rw [this, ih (acc ++ [i]) (fun y hy => h y (by simp [hy]))]
    simp [identsOf]

mutual

theorem flatten_spec (t : UseTree) :
    ∀ (pre : List UseTree), (∀ x ∈ pre, x.isPathNode = true) →
      ∃ l, flatten_imported_paths t pre = some l ∧
        (∀ ui ∈ l, ui.vis = Visibility.public ∧
          ∃ p, extract_imported_paths ui.tree [] = [p]) ∧
        l.flatMap (fun ui => extract_imported_paths ui.tree [])
          = extract_imported_paths t (identsOf pre) := by
  cases t with
  | path i sub =>
    intro pre hpre
    have hpre2 : ∀ x ∈ pre ++ [UseTree.path i sub], x.isPathNode = true := by
      intro x hx
      rcases List.mem_append.mp hx with h1 | h1
      · exact hpre x h1
      · simp at h1
        subst h1
        simp [UseTree.isPathNode]
    obtain ⟨l, hl, hsing, hflat⟩ := flatten_spec sub (pre ++ [UseTree.path i sub]) hpre2
    refine ⟨l, by simpa [flatten_imported_paths] using hl, hsing, ?_⟩
    rw [hflat, identsOf_append]
    simp [identsOf, extract_imported_paths]
  | name i =>
    intro pre hpre
    refine ⟨[⟨Visibility.public, chainTree pre (UseTree.name i)⟩], ?_, ?_, ?_⟩
    · simp [flatten_imported_paths, wrap_allPaths pre _ hpre]
    · intro ui hui
      simp at hui
      subst hui
      refine ⟨rfl, identsOf pre ++ [i], ?_⟩
      rw [extract_chainTree pre _ [] hpre]
      simp [extract_imported_paths]
    · rw [List.flatMap_cons]
      simp only [List.flatMap_nil, List.append_nil]
      rw [extract_chainTree pre _ [] hpre]
      simp [extract_imported_paths]
  | rename i r =>
    intro pre hpre
    refine ⟨[⟨Visibility.public, chainTree pre (UseTree.rename i r)⟩], ?_, ?_, ?_⟩
    · simp [flatten_imported_paths, wrap_allPaths pre _ hpre]
    · intro ui hui
      simp at hui
      subst hui
      refine ⟨rfl, identsOf pre ++ [r], ?_⟩
      rw [extract_chainTree pre _ [] hpre]
      simp [extract_imported_paths]
    · rw [List.flatMap_cons]
      simp only [List.flatMap_nil, List.append_nil]
      rw [extract_chainTree pre _ [] hpre]
      simp [extract_imported_paths]
  | glob =>
    intro pre hpre
    refine ⟨[⟨Visibility.public, chainTree pre UseTree.glob⟩], ?_, ?_, ?_⟩
    · simp [flatten_imported_paths, wrap_allPaths pre _ hpre]
    · intro ui hui
      simp at hui
      subst hui
      refine ⟨rfl, identsOf pre, ?_⟩
      rw [extract_chainTree pre _ [] hpre]
      simp [extract_imported_paths]
    · rw [List.flatMap_cons]
      simp only [List.flatMap_nil, List.append_nil]
      rw [extract_chainTree pre _ [] hpre]
      simp [extract_imported_paths]
  | group items =>
    intro pre hpre
    obtain ⟨l, hl, hsing, hflat⟩ := flattenList_spec items pre hpre
    exact ⟨l, by simpa [flatten_imported_paths] using hl, hsing,
      by simpa [extract_imported_paths] using hflat⟩

theorem flattenList_spec (ts : List UseTree) :
    ∀ (pre : List UseTree), (∀ x ∈ pre, x.isPathNode = true) →
      ∃ l, flattenList ts pre = some l ∧
        (∀ ui ∈ l, ui.vis = Visibility.public ∧
          ∃ p, extract_imported_paths ui.tree [] = [p]) ∧
        l.flatMap (fun ui => extract_imported_paths ui.tree [])
          = extractList ts (identsOf pre) := by
  cases ts with
  | nil =>
    intro pre hpre
    exact ⟨[], by simp [flattenList], by simp, by simp [extractList]⟩
  | cons t rest =>
    intro pre hpre
    obtain ⟨l1, hl1, hsing1, hflat1⟩ := flatten_spec t pre hpre
    obtain ⟨l2, hl2, hsing2, hflat2⟩ := flattenList_spec rest pre hpre
    refine ⟨l1 ++ l2, ?_, ?_, ?_⟩
    · simp [flattenList, hl1, hl2]
    · intro ui hui
      rcases List.mem_append.mp hui with h1 | h1
      · exact hsing1 ui h1
      · exact hsing2 ui h1
    · rw [List.flatMap_append, hflat1, hflat2]
      simp [extractList]

end
/-- Claim C9: `flatten_imported_paths` never reaches the `panic` on an
    unexpected group — for every use-tree, and every prefix consisting of
    `Path` nodes only (which is the only kind of prefix the recursion ever
    builds, starting from the empty prefix at the call sites), the result is
    `some`. -/
theorem claim_c9 (t : UseTree) (pre : List UseTree)
    (h : ∀ x ∈ pre, x.isPathNode = true) :
    (flatten_imported_paths t pre).isSome := by
  obtain ⟨l, hl, -, -⟩ := flatten_spec t pre h
  simp [hl]

theorem claim_c9_witness :
    (∀ x ∈ ([] : List UseTree), x.isPathNode = true) ∧
    (flatten_imported_paths
        (UseTree.path (str "a") (UseTree.group
          [UseTree.name (str "b"),
           UseTree.path (str "c") (UseTree.group
             [UseTree.rename (str "d") (str "e"), UseTree.glob])]))
        []).isSome :=
  ⟨by simp, claim_c9 _ [] (by simp)⟩

/-- Claim C8: round trip of flattening — flattening a use-tree from the empty
    prefix into single-leaf use items and re-extracting their leaf paths
    yields the same set of leaf paths as extracting the original tree
    directly (in fact the same list). -/
theorem claim_c8 (t : UseTree) :
    ∃ l, flatten_imported_paths t [] = some l ∧
      (l.flatMap (fun ui => extract_imported_paths ui.tree [])).toFinset
        = (extract_imported_paths t []).toFinset := by
  obtain ⟨l, hl, -, hflat⟩ := flatten_spec t [] (by simp)
  refine ⟨l, hl, ?_⟩
  rw [hflat]
  rfl
theorem filterPubUses_eq (pp : ParsedPaths) (ip : Str) (l : List ItemUse)
    (h : ∀ ui ∈ l, keepUse pp ip ui = some (keepLeaf pp ip ui)) :
    filterPubUses pp ip l = some (l.filter (keepLeaf pp ip)) := by
  induction l with
  | nil => simp [filterPubUses]
  | cons ui rest ih =>
    simp only [filterPubUses]
    rw [h ui (by simp)]
    rw [ih (fun x hx => h x (by simp [hx]))]
    by_cases hk : keepLeaf pp ip ui = true <;> simp [hk, List.filter_cons]

theorem keepUse_eq_keepLeaf (pp : ParsedPaths) (ip : Str) (ui : ItemUse)
    (p : List Str) (hp : extract_imported_paths ui.tree [] = [p]) (hne : p ≠ []) :
    keepUse pp ip ui = some (keepLeaf pp ip ui) := by
  unfold keepUse keepLeaf
  rw [hp]
  cases p with
  | nil => exact absurd rfl hne
  | cons s0 rest2 =>
    simp only [List.head?]
    cases h2 : (s0 :: rest2).getLast? with
    | none => simp [List.getLast?_eq_none_iff] at h2
    | some a =>
      have hd : (s0 :: rest2).getLastD [] = a := by
        rw [List.getLastD_eq_getLast?, h2]
        rfl
      simp only [tranform_alias_and_fqn, derivedAlias, hd]

/-- Claim C3: item filtering in Phase C — a private use-import passes through
    unchanged; a public use-import is replaced by exactly those of its
    flattened single-leaf forms whose derived alias is in `alias_hits`
    (`pub_use_used`), so some remnant of it survives into the output iff at
    least one of its leaf paths has its derived alias marked used.  (The
    hypothesis excludes the degenerate empty leaf path of a bare root glob,
    on which the code would panic in `path.last().expect(..)`.) -/
theorem claim_c3 (pp : ParsedPaths) (ip : Str) (u : ItemUse) :
    (is_pub_use u = false → filter_file_items pp ip [Item.use u] = some [Item.use u]) ∧
    (is_pub_use u = true → [] ∉ extract_imported_paths u.tree [] →
      ∃ l, flatten_imported_paths u.tree [] = some l ∧
        filter_file_items pp ip [Item.use u]
          = some ((l.filter (keepLeaf pp ip)).map Item.use) ∧
        ((l.filter (keepLeaf pp ip) ≠ []) ↔
          ∃ p ∈ extract_imported_paths u.tree [],
            pp.is_pub_use_used (derivedAlias ip p) = true)) := by
  constructor
  · intro hpriv
    simp [filter_file_items, filterItem, hpriv]
  · intro hpub hnil
    obtain ⟨l, hl, hsing, hflat⟩ := flatten_spec u.tree [] (by simp)
    simp only [identsOf, List.map_nil] at hflat
    have hmem : ∀ ui ∈ l, ∀ p, extract_imported_paths ui.tree [] = [p] →
        p ∈ extract_imported_paths u.tree [] := by
      intro ui hui p hp
      rw [← hflat]
      exact List.mem_flatMap.mpr ⟨ui, hui, by simp [hp]⟩
    have hkeep : ∀ ui ∈ l, keepUse pp ip ui = some (keepLeaf pp ip ui) := by
      intro ui hui
      obtain ⟨-, p, hp⟩ := hsing ui hui
      refine keepUse_eq_keepLeaf pp ip ui p hp ?_
      intro hpe
      subst hpe
      exact hnil (hmem ui hui [] hp)
    refine ⟨l, hl, ?_, ?_⟩
    · have hfil : filterItem pp ip (Item.use u)
          = some ((l.filter (keepLeaf pp ip)).map Item.use) := by
        simp only [filterItem, hpub, if_true, hl]
        rw [filterPubUses_eq pp ip l hkeep]
        rfl
      simp [filter_file_items, hfil]
    · constructor
      · intro hne
        rw [Ne, List.filter_eq_nil_iff] at hne
        push_neg at hne
        obtain ⟨ui, hui, hkp⟩ := hne
        obtain ⟨-, p, hp⟩ := hsing ui hui
        refine ⟨p, hmem ui hui p hp, ?_⟩
        have : keepLeaf pp ip ui = pp.is_pub_use_used (derivedAlias ip p) := by
          unfold keepLeaf
          rw [hp]
          rfl
        rw [← this]
        simpa using hkp
      · rintro ⟨p, hpmem, hused⟩
        rw [← hflat] at hpmem
        obtain ⟨ui, hui, hpui⟩ := List.mem_flatMap.mp hpmem
        obtain ⟨-, p2, hp2⟩ := hsing ui hui
        rw [hp2] at hpui
        simp at hpui
        subst hpui
        have hkl : keepLeaf pp ip ui = true := by
          unfold keepLeaf
          rw [hp2]
          simpa using hused
        rw [Ne, List.filter_eq_nil_iff]
        push_neg
        exact ⟨ui, hui, by simp [hkl]⟩


theorem claim_c3_witness :
    (is_pub_use ⟨Visibility.public, UseTree.path (str "a")
        (UseTree.group [UseTree.name (str "b"), UseTree.name (str "c")])⟩ = true ∧
      [] ∉ extract_imported_paths (UseTree.path (str "a")
        (UseTree.group [UseTree.name (str "b"), UseTree.name (str "c")])) []) ∧
    (∃ l, flatten_imported_paths (UseTree.path (str "a")
          (UseTree.group [UseTree.name (str "b"), UseTree.name (str "c")])) []
          = some l ∧
      filter_file_items (ParsedPaths.mk ∅ [] {str "m/b"}) (str "m")
          [Item.use ⟨Visibility.public, UseTree.path (str "a")
            (UseTree.group [UseTree.name (str "b"), UseTree.name (str "c")])⟩]
        = some ((l.filter (keepLeaf (ParsedPaths.mk ∅ [] {str "m/b"}) (str "m"))).map
            Item.use) ∧
      ((l.filter (keepLeaf (ParsedPaths.mk ∅ [] {str "m/b"}) (str "m")) ≠ []) ↔
        ∃ p ∈ extract_imported_paths (UseTree.path (str "a")
          (UseTree.group [UseTree.name (str "b"), UseTree.name (str "c")])) [],
          (ParsedPaths.mk ∅ [] {str "m/b"}).is_pub_use_used
            (derivedAlias (str "m") p) = true)) :=
  ⟨⟨rfl, by decide⟩,
    (claim_c3 (ParsedPaths.mk ∅ [] {str "m/b"}) (str "m")
      ⟨Visibility.public, UseTree.path (str "a")
        (UseTree.group [UseTree.name (str "b"), UseTree.name (str "c")])⟩).2
      rfl (by decide)⟩
theorem head_append_singleton (done : List Str) (seg : Str) (segs2 : List Str)
    (h : (done ++ seg :: segs2).head? = some (str "std")) :
    ((done : List Str) ++ [seg]).head? = some (str "std") := by
  cases done with
  | nil => simpa using h
  | cons d ds => simpa using h

theorem insertSegsAux_head (recIns : ParsedPaths → Str → ParsedPaths) :
    ∀ (segs done : List Str) (st : ParsedPaths) (acc : Str),
      acc = joinSegs done → CleanSegs segs → CleanSegs done →
      (done ++ segs).head? = some (str "std") →
      (∀ kv ∈ st.pub_use_decls, (splitSegments kv.1).head? ≠ some (str "std")) →
      ∀ q ∈ (insertSegsAux recIns st acc segs).paths,
        q ∈ st.paths ∨ (splitSegments q).head? = some (str "std") := by
  intro segs
  induction segs with
  | nil =>
    intro done st acc hacc hs hd hh hdecls q hq
    simp only [insertSegsAux] at hq
    exact Or.inl hq
  | cons seg rest ih =>
    intro done st acc hacc hs hd hh hdecls q hq
    subst hacc
    have hdone2 : CleanSegs (done ++ [seg]) := by
      intro s hs2
      rcases List.mem_append.mp hs2 with h1 | h1
      · exact hd s h1
      · simp at h1
        subst h1
        exact hs s (by simp)
    have hrest : CleanSegs rest := fun s h => hs s (by simp [h])
    have hhead1 : ((done : List Str) ++ [seg]).head? = some (str "std") :=
      head_append_singleton done seg rest hh
    have hcurhead : (splitSegments (joinSegs (done ++ [seg]))).head? = some (str "std") := by
      rw [splitSegments_joinSegs _ hdone2]
      exact hhead1
    simp only [insertSegsAux] at hq
    rw [acc_step done seg hd] at hq
    -- the alias lookup cannot hit: every key has a non-std head
    cases hl : lookupDecl (joinSegs (done ++ [seg])) st.pub_use_decls with
    | some fq =>
      exact absurd hcurhead
        (hdecls (joinSegs (done ++ [seg]), fq) (lookupDecl_mem _ _ _ hl))
    | none =>
      rw [hl] at hq
      have hhead2 : ((done ++ [seg]) ++ rest).head? = some (str "std") := by
        rw [List.append_assoc]
        simpa using hh
      have := ih (done ++ [seg])
        ⟨insert (joinSegs (done ++ [seg])) st.paths, st.pub_use_decls, st.pub_use_used⟩
        _ rfl hrest hdone2 hhead2 hdecls q hq
      rcases this with h1 | h1
      · rcases Finset.mem_insert.mp h1 with h2 | h2
        · subst h2
          exact Or.inr hcurhead
        · exact Or.inl h2
      · exact Or.inr h1

theorem insert_path_head (fuel : Nat) (st : ParsedPaths) (p : Str)
    (hp : (splitSegments p).head? = some (str "std"))
    (hdecls : ∀ kv ∈ st.pub_use_decls, (splitSegments kv.1).head? ≠ some (str "std")) :
    ∀ q ∈ (ParsedPaths.insert_path fuel st p).paths,
      q ∈ st.paths ∨ (splitSegments q).head? = some (str "std") := by
  have hjoin : (splitSegments (joinSegs (splitSegments p))).head? = some (str "std") := by
    rw [splitSegments_joinSegs _ (cleanSegs_splitSegments p)]
    exact hp
  have main : ∀ (recIns : ParsedPaths → Str → ParsedPaths) q,
      q ∈ (insertPathCore recIns st p).paths →
      q ∈ st.paths ∨ (splitSegments q).head? = some (str "std") := by
    intro recIns q hq
    simp only [insertPathCore] at hq
    have := insertSegsAux_head recIns (splitSegments p) []
      ⟨insert (joinSegs (splitSegments p)) st.paths, st.pub_use_decls, st.pub_use_used⟩
      [] rfl (cleanSegs_splitSegments p)
      (fun s h => absurd h (List.not_mem_nil s)) (by simpa using hp) hdecls q hq
    rcases this with h1 | h1
    · rcases Finset.mem_insert.mp h1 with h2 | h2
      · subst h2
        exact Or.inr hjoin
      · exact Or.inl h2
    · exact Or.inr h1
  cases fuel with
  | zero => exact main _
  | succ f => exact main _

/-- Claim C4: the canonical alias/target derivation of
    `tranform_alias_and_fqn` for a non-empty leaf path, with the alias
    argument the path's last segment as at both call sites: the alias is
    `import_path + "/" + segs.last` and the target is `join(segs, "/")` when
    `segs[0] = "std"`, else `import_path + "/" + join(segs, "/")`.
    Consequently, inserting the target of a std re-export into a Path Index
    whose alias table has no std-rooted key (Phase A never registers one for
    crates not named "std") only adds paths rooted at `std` — it never pulls
    in a user-crate path. -/
theorem claim_c4 (ip s0 : Str) (rest : List Str) :
    tranform_alias_and_fqn ((s0 :: rest).getLastD []) ip (s0 :: rest)
      = (ip ++ '/' :: (s0 :: rest).getLastD [],
         if s0 = str "std" then joinSegs (s0 :: rest)
         else ip ++ '/' :: joinSegs (s0 :: rest)) ∧
    (s0 = str "std" → CleanSegs (s0 :: rest) →
      ∀ (fuel : Nat) (st : ParsedPaths),
        (∀ kv ∈ st.pub_use_decls, (splitSegments kv.1).head? ≠ some (str "std")) →
        ∀ q ∈ (ParsedPaths.insert_path fuel st
            (tranform_alias_and_fqn ((s0 :: rest).getLastD []) ip (s0 :: rest)).2).paths,
          q ∈ st.paths ∨ (splitSegments q).head? = some (str "std")) := by
  constructor
  · unfold tranform_alias_and_fqn
    by_cases h : s0 = str "std" <;> simp [h]
  · intro hstd hclean fuel st hdecls q hq
    subst hstd
    have htgt : (tranform_alias_and_fqn
        ((str "std" :: rest).getLastD []) ip (str "std" :: rest)).2
        = joinSegs (str "std" :: rest) := by
      unfold tranform_alias_and_fqn
      simp
    rw [htgt] at hq
    refine insert_path_head fuel st (joinSegs (str "std" :: rest)) ?_ hdecls q hq
    rw [splitSegments_joinSegs _ hclean]
    rfl

theorem claim_c4_witness :
    tranform_alias_and_fqn ((str "std" :: [str "x"]).getLastD []) (str "m")
        (str "std" :: [str "x"]) = (str "m/x", str "std/x") ∧
    (str "std/x" ∈ (ParsedPaths.mk {str "lib_a"} [(str "m/x", str "std/x")] ∅).paths ∨
      (splitSegments (str "std/x")).head? = some (str "std")) :=
  ⟨by decide,
    (claim_c4 (str "m") (str "std") [str "x"]).2 rfl (by decide) 3
      (ParsedPaths.mk {str "lib_a"} [(str "m/x", str "std/x")] ∅) (by decide)
      (str "std/x") (by decide)⟩
theorem rewriteCrateAux_no_match (name0 : Str) :
    ∀ (n : Nat) (s : Str), hasCrateMatch s = false → rewriteCrateAux name0 n s = s := by
  intro n
  induction n with
  | zero => intro s h; simp [rewriteCrateAux]
  | succ m ih =>
    intro s h
    cases s with
    | nil => simp [rewriteCrateAux]
    | cons x rest =>
      simp only [hasCrateMatch, Bool.or_eq_false_iff] at h
      simp only [rewriteCrateAux, h.1, if_neg, Bool.false_eq_true, not_false_iff]
      rw [ih rest h.2]

/-- Claim C7 counterexample: the `crate::` rewrite is not idempotent.  On
    `"use crate::x;"` with crate name `"m"`, one application yields
    `"use crate::m::x;"`; a second application matches `crate::` again (the
    injected crate name starts with a word character, so `crate::\b` still
    matches) and yields `"use crate::m::m::x;"`. -/
theorem claim_c7_counterexample :
    rewriteCrate (str "m") (rewriteCrate (str "m") (str "use crate::x;"))
      ≠ rewriteCrate (str "m") (str "use crate::x;") ∧
    rewriteCrate (str "m") (str "use crate::x;") = str "use crate::m::x;" ∧
    rewriteCrate (str "m") (rewriteCrate (str "m") (str "use crate::x;"))
      = str "use crate::m::m::x;" :=
  ⟨by decide, by decide, by decide⟩

/-- Claim C7 (amended): the rewrite is NOT idempotent in general — a second
    application re-rewrites the occurrences the first one produced, because
    `crate::` followed by the injected crate name still matches `crate::\b`.
    What the word-boundary guard does ensure is that the rewrite is a no-op
    exactly on texts with no occurrence of `crate::` followed by a word
    character (for example `use crate::{..}` lists, where `{` blocks the
    boundary); on such texts repeated application trivially changes
    nothing. -/
theorem claim_c7_amended (name0 t : Str) (h : hasCrateMatch t = false) :
    rewriteCrate name0 t = t :=
  rewriteCrateAux_no_match name0 t.length t h

theorem claim_c7_witness :
    hasCrateMatch (str "use crate::{a};") = false ∧
    rewriteCrate (str "m") (str "use crate::{a};") = str "use crate::{a};" :=
  ⟨by decide, claim_c7_amended (str "m") (str "use crate::{a};") (by decide)⟩

/-- Claim C5 (documents the divergence): with crates `lib_a` (library root
    present) and `lib_b` (library root missing), the whole bundler run aborts
    in Phase A — `collect_pub_use_decls` reads every crate's `src/lib.rs`
    behind `?` — with the contextual error, even though Phase C in isolation
    would have warned and skipped `lib_b` (`process_library_file` returns
    `Ok`, and the Phase C loop alone completes, bundling only `lib_a`). -/
theorem claim_c5 :
    bundler_run {str "lib_a", str "lib_b"}
        [⟨str "lib_a", true⟩, ⟨str "lib_b", false⟩]
      = .error (str "failed to read library file for crate lib_b") ∧
    process_library_file ⟨str "lib_b", false⟩ = .ok false ∧
    collect_library_files {str "lib_a", str "lib_b"}
        [⟨str "lib_a", true⟩, ⟨str "lib_b", false⟩] = .ok [str "lib_a"] :=
  ⟨rfl, rfl, rfl⟩

/-- Claim C6 (documents the divergence): the emitted wrapper-module order is
    exactly the crate iteration order.  Two runs over the same discovered
    crates (`lib_a`, `lib_b`, both used, both with library roots) whose crate
    `HashMap` happens to iterate in opposite orders produce different outputs,
    so the output is not a function of the source tree alone — the code
    iterates the `std` `HashMap` directly without sorting. -/
theorem claim_c6 :
    bundler_run {str "lib_a", str "lib_b"}
        [⟨str "lib_a", true⟩, ⟨str "lib_b", true⟩] = .ok [str "lib_a", str "lib_b"] ∧
    bundler_run {str "lib_a", str "lib_b"}
        [⟨str "lib_b", true⟩, ⟨str "lib_a", true⟩] = .ok [str "lib_b", str "lib_a"] ∧
    ([str "lib_a", str "lib_b"] : List Str) ≠ [str "lib_b", str "lib_a"] :=
  ⟨rfl, rfl, by decide⟩
